import Mathlib

/-!
Verification of the numerical cores of the ITKImageProcessing plugin
repository: the background-estimation filter (CalculateBackground) and
the FFT-convolution tile-registration cost function
(FFTConvolutionCostFunction), shallowly embedded from the C++ sources.

Machine doubles are modelled as exact rationals; where a non-finite
IEEE value matters (division by a zero count) an explicit value model
`DVal` with NaN and infinities is used.  Byte pixels are naturals,
machine signed integers are `ℤ`.
-/

namespace CalculateBackground

/-- Truncation toward zero, the C++ `double` to integral conversion rule. -/
def dtrunc (q : ℚ) : ℤ := if 0 ≤ q then ⌊q⌋ else ⌈q⌉

/-- Storing an integer value into a `uint8_t`.  C++ leaves an out-of-range
floating-point to `uint8_t` store undefined; the model keeps the low
8 bits of the truncated value (wraparound modulo 256), which is what the
usual conversion sequence produces. -/
def uint8Store (z : ℤ) : ℕ := (z % 256).toNat

/-- Subtract-mode correction of one pixel (`execute`, lines 371-396 of
the CalculateBackground source).  `input` is the byte value `image[t]`
and `surface` the double `Bcalc(t)`.  The statement
`image[t] = image[t] - Bcalc(t)` stores the double difference into the
`uint8_t` slot; the two subsequent clamp tests compare the stored
`uint8_t` value against 0 and 255, exactly as the source does. -/
def subtractCorrectPixel (low high : ℤ) (surface : ℚ) (input : ℕ) : ℕ :=
  if low ≤ (input : ℤ) ∧ (input : ℤ) ≤ high then
    let v1 := uint8Store (dtrunc ((input : ℚ) - surface))
    let v2 := if (v1 : ℤ) < 0 then 0 else v1
    if 255 < (v2 : ℤ) then 255 else v2
  else input

/-- A machine double restricted to the cases the code exercises: a finite
value held exactly as a rational, or one of the non-finite values. -/
inductive DVal
  | fin (q : ℚ)
  | nan
  | pinf
  | ninf
  deriving DecidableEq

/-- IEEE division for the exercised cases: `x / 0` is NaN when `x = 0`
and a signed infinity otherwise; division by a nonzero denominator is
modelled exactly (rounding is irrelevant to the checked claims). -/
def ddiv (a b : ℚ) : DVal :=
  if b = 0 then
    if a = 0 then .nan else if 0 < a then .pinf else .ninf
  else .fin (a / b)

/-- Finiteness of a modelled double. -/
def DVal.isFinite : DVal → Bool
  | .fin _ => true
  | .nan => false
  | .pinf => false
  | .ninf => false

/-- The threshold test of the aggregation and correction loops:
`image[t] >= m_lowThresh && image[t] <= m_highThresh`. -/
def qualifies (low high : ℤ) (v : ℕ) : Bool :=
  decide (low ≤ (v : ℤ)) && decide ((v : ℤ) ≤ high)

/-- The aggregation loop at one pixel position (`execute`, lines
299-318): `vals` lists the source-image values at that position, and the
result is the accumulated `(background[t], counter[t])` pair (both
doubles in the source, starting from 0). -/
def aggregateAt (low high : ℤ) (vals : List ℕ) : ℚ × ℚ :=
  vals.foldl (fun bc v => if qualifies low high v then (bc.1 + (v : ℚ), bc.2 + 1) else bc) (0, 0)

/-- The averaging step at one pixel (`execute`, lines 323-326):
`background[j] /= counter[j]`, an unguarded double division. -/
def averageAt (low high : ℤ) (vals : List ℕ) : DVal :=
  ddiv (aggregateAt low high vals).1 (aggregateAt low high vals).2

/-- Row `i` of the least-squares design matrix `A` (`execute`, lines
334-345): with `xval = int(i / dims[0])` and `yval = int(i % dims[0])`
the row is `A(i,0..5) = [1, xval, yval, xval*yval, xval*xval,
yval*yval]`.  Both operands of the C++ integer division are nonnegative,
so natural division and remainder are exact transcriptions. -/
def designA (w i : ℕ) : Fin 6 → ℤ :=
  ![1, ((i / w : ℕ) : ℤ), ((i % w : ℕ) : ℤ),
    ((i / w : ℕ) : ℤ) * ((i % w : ℕ) : ℤ),
    ((i / w : ℕ) : ℤ) * ((i / w : ℕ) : ℤ),
    ((i % w : ℕ) : ℤ) * ((i % w : ℕ) : ℤ)]

/-- Entry `i` of the right-hand side `B` (`execute`, line 338):
`B(i) = background[i]`, the averaged background value at flat index
`i`. -/
def designB (background : ℕ → ℚ) (i : ℕ) : ℚ := background i

/-- `Bcalc = A * p` (`execute`, line 362): the fitted polynomial, i.e.
the dot product of design row `i` with the solved coefficient vector
`p`, evaluated at every flat pixel index below `n`. -/
def fittedField (p : Fin 6 → ℚ) (w n : ℕ) : List ℚ :=
  (List.range n).map (fun i => Finset.univ.sum (fun c : Fin 6 => ((designA w i c : ℤ) : ℚ) * p c))

/-- The Eigen `.mean()` of a field: sum divided by length. -/
def fieldMean (v : List ℚ) : ℚ := v.sum / (v.length : ℚ)

/-- The centering step (`execute`, lines 359-364):
`Bcalc = Bcalc - Constant(average)` with `average = Bcalc.mean()`. -/
def centerField (v : List ℚ) : List ℚ := v.map (fun x => x - fieldMean v)

/-- The values written into the background-image array (`execute`, lines
359-369): the fitted polynomial at every pixel, mean-centered. -/
def backgroundImage (p : Fin 6 → ℚ) (w n : ℕ) : List ℚ :=
  centerField (fittedField p w n)

/-- The configuration flags and thresholds of the filter. -/
structure CBConfig where
  subtractBackground : Bool
  divideBackground : Bool
  lowThresh : ℤ
  highThresh : ℤ

/-- Outcome of `dataCheck` (lines 148-228): a reported error condition,
an undefined-behaviour null-pointer dereference, or success carrying
`m_TotalPoints`. -/
inductive DataCheckOutcome
  | err (code : ℤ)
  | nullDeref
  | ok (totalPoints : ℕ)
  deriving DecidableEq

/-- `dataCheck` (lines 148-228).  The attribute matrix is `none` when
the lookup fails (error -76000).  Each attribute array is `none` when
the dynamic cast to a uint8 array fails (the loop reports -76001 for
it), otherwise the byte data.  Selecting both subtract and divide sets
error -76002 after the loop, overwriting any -76001.  When no error is
set the code reads `imagePtr->getNumberOfTuples()`, where `imagePtr`
still holds the cast of the last array of the loop: with zero arrays it
is the null pointer and the read is a null dereference. -/
def dataCheck (cfg : CBConfig) (am : Option (List (Option (List ℕ)))) : DataCheckOutcome :=
  match am with
  | none => .err (-76000)
  | some arrays =>
    let errLoop : ℤ := if arrays.any (fun a => a.isNone) then -76001 else 0
    let errCond : ℤ := if cfg.subtractBackground && cfg.divideBackground then -76002 else errLoop
    if errCond < 0 then .err errCond
    else
      match arrays.getLast? with
      | none => .nullDeref
      | some none => .nullDeref
      | some (some arr) => .ok arr.length

/-- Outcome of `execute`: an abort carrying the (unmodified) image
arrays, the undefined-behaviour crash inherited from `dataCheck`, or a
completed run with the background field and the final image arrays. -/
inductive ExecOutcome
  | aborted (code : ℤ) (images : List (List ℕ))
  | crashed
  | done (background : List DVal) (images : List (List ℕ))

/-- The image arrays actually present in the attribute matrix. -/
def imagesOf (arrays : List (Option (List ℕ))) : List (List ℕ) := arrays.filterMap id

/-- `execute` (lines 249-424).  It reruns `dataCheck` and returns at
once, with every image array untouched, when the error condition is
negative.  `run` abstracts the aggregation / averaging / fit /
correction body, which is reached only on a successful check. -/
def execute (cfg : CBConfig) (am : Option (List (Option (List ℕ))))
    (run : List (List ℕ) → List DVal × List (List ℕ)) : ExecOutcome :=
  match dataCheck cfg am with
  | .err code => .aborted code (imagesOf (am.getD []))
  | .nullDeref => .crashed
  | .ok _ =>
    let r := run (imagesOf (am.getD []))
    .done r.1 r.2

end CalculateBackground

namespace FFTConvolutionCostFunction

/-- `std::numeric_limits<int64_t>::lowest()` converted to double; the
conversion is exact. -/
def int64Lowest : ℚ := -9223372036854775808

/-- `maxFromArray` (lines 616-627): a fold over the buffer starting from
the int64-lowest sentinel, replacing the accumulator whenever a strictly
larger element is seen. -/
def maxFromArray (buf : List ℚ) : ℚ :=
  buf.foldl (fun m x => if x > m then x else m) int64Lowest

/-- The accumulation step of `findFFTConvolutionAndMaxValue` (lines
632-654): the maximum of the convolution output buffer is added to the
residual.  The convolution itself is the external
`itk::FFTConvolutionImageFilter`; the embedding takes its output buffer
as data. -/
def findFFTConvolutionAndMaxValue (residual : ℚ) (convOutput : List ℚ) : ℚ :=
  residual + maxFromArray convOutput

/-- `GetValue` (lines 456-470), abstracted over the per-overlap-pair
convolution output buffers: the residual starts at 0 and accumulates
each pair's maximum (rational addition is commutative, so the
nondeterministic task order of the source is irrelevant); the result is
`residual * residual`. -/
def GetValue (convOutputs : List (List ℚ)) : ℚ :=
  let residual := convOutputs.foldl findFFTConvolutionAndMaxValue 0
  residual * residual

/-- `GetDerivative` (lines 440-443): `throw std::exception();`
unconditionally, so no derivative value is ever produced. -/
def GetDerivative (_parameters : List ℚ) : Except Unit (List ℚ) := .error ()

/-- The four bounds of the valid footprint of a warped tile image. -/
structure RegionBounds where
  topBound : ℤ
  bottomBound : ℤ
  leftBound : ℤ
  rightBound : ℤ
  deriving DecidableEq

/-- `FFTImageOverlapGenerator::updateRegionBounds` (lines 164-193).
`ox, oy` are the image origin, `sx, sy` the requested-region size and
`ix, iy` the invalid pixel.  The four distances are
`distTop = iy - oy`, `distBot = oy + sy - iy`, `distLeft = ix - ox`,
`distRight = ox + sx - ix`, and the if/else-if chain tightens the first
bound, in the order top, bottom, left, right, whose distance is no
larger than the other three. -/
def updateRegionBounds (ox oy sx sy : ℤ) (ix iy : ℤ) (b : RegionBounds) : RegionBounds :=
  if iy - oy ≤ oy + sy - iy ∧ iy - oy ≤ ix - ox ∧ iy - oy ≤ ox + sx - ix then
    { b with topBound := max b.topBound iy }
  else if oy + sy - iy ≤ iy - oy ∧ oy + sy - iy ≤ ix - ox ∧ oy + sy - iy ≤ ox + sx - ix then
    { b with bottomBound := min b.bottomBound iy }
  else if ix - ox ≤ iy - oy ∧ ix - ox ≤ oy + sy - iy ∧ ix - ox ≤ ox + sx - ix then
    { b with leftBound := max b.leftBound ix }
  else if ox + sx - ix ≤ iy - oy ∧ ox + sx - ix ≤ oy + sy - iy ∧ ox + sx - ix ≤ ix - ox then
    { b with rightBound := min b.rightBound ix }
  else b

/-- One of the four edges of the source footprint. -/
inductive Edge
  | top
  | bottom
  | left
  | right
  deriving DecidableEq

/-- Modelled from the claim wording: the edge whose distance is minimal,
ties resolved in the fixed inspection order top, bottom, left, right. -/
def nearestEdge (dT dB dL dR : ℤ) : Edge :=
  if dT = min (min dT dB) (min dL dR) then .top
  else if dB = min (min dT dB) (min dL dR) then .bottom
  else if dL = min (min dT dB) (min dL dR) then .left
  else .right

/-- Modelled from the claim wording: tighten exactly the bound named by
the edge (top raised by max, bottom lowered by min, left raised by max,
right lowered by min); the other three bounds are untouched. -/
def applyEdge (e : Edge) (ix iy : ℤ) (b : RegionBounds) : RegionBounds :=
  match e with
  | .top => { b with topBound := max b.topBound iy }
  | .bottom => { b with bottomBound := min b.bottomBound iy }
  | .left => { b with leftBound := max b.leftBound ix }
  | .right => { b with rightBound := min b.rightBound ix }

end FFTConvolutionCostFunction

/-! ## Helper lemmas -/

namespace CalculateBackground

/-- Truncation of an integer-valued rational is that integer. -/
lemma dtrunc_intCast (z : ℤ) : dtrunc ((z : ℤ) : ℚ) = z := by
  unfold dtrunc
  split <;> simp

/-- Subtracting a constant from every entry shifts the sum by length
times the constant. -/
lemma sum_map_sub_const (v : List ℚ) (c : ℚ) :
    (v.map (fun x => x - c)).sum = v.sum - (v.length : ℚ) * c := by
  induction v with
  | nil => simp
  | cons a t ih =>
    simp only [List.map_cons, List.sum_cons, List.length_cons, ih]
    push_cast
    ring

/-- The mean of any centered field is zero. -/
lemma fieldMean_centerField (v : List ℚ) : fieldMean (centerField v) = 0 := by
  rcases eq_or_ne v [] with h | h
  · subst h
    simp [centerField, fieldMean]
  · have hn : (v.length : ℚ) ≠ 0 :=
      Nat.cast_ne_zero.mpr (fun hlen => h (List.length_eq_zero.mp hlen))
    unfold centerField fieldMean
    rw [List.length_map, sum_map_sub_const]
    have key : (v.length : ℚ) * (v.sum / (v.length : ℚ)) = v.sum := by
      field_simp
    rw [key, sub_self, zero_div]

/-- Closed form of the aggregation fold with a generalized accumulator. -/
lemma aggregate_go (low high : ℤ) : ∀ (vals : List ℕ) (b c : ℚ),
    vals.foldl (fun bc v => if qualifies low high v then (bc.1 + (v : ℚ), bc.2 + 1) else bc) (b, c) =
      (b + ((vals.filter (qualifies low high)).map (fun v : ℕ => (v : ℚ))).sum,
        c + ((vals.filter (qualifies low high)).length : ℚ)) := by
  intro vals
  induction vals with
  | nil => intro b c; simp
  | cons v t ih =>
    intro b c
    by_cases hq : qualifies low high v
    · rw [List.foldl_cons, if_pos hq, ih, List.filter_cons_of_pos hq]
      simp only [List.map_cons, List.sum_cons, List.length_cons, Prod.mk.injEq]
      constructor <;> push_cast <;> ring
    · rw [List.foldl_cons, if_neg hq, ih, List.filter_cons_of_neg (by simpa using hq)]

/-- The aggregation at a pixel is the sum and the count of the
qualifying source values. -/
lemma aggregateAt_spec (low high : ℤ) (vals : List ℕ) :
    aggregateAt low high vals =
      (((vals.filter (qualifies low high)).map (fun v : ℕ => (v : ℚ))).sum,
        ((vals.filter (qualifies low high)).length : ℚ)) := by
  unfold aggregateAt
  simpa using aggregate_go low high vals 0 0

end CalculateBackground

namespace FFTConvolutionCostFunction

/-- The comparison step of maxFromArray is the binary maximum. -/
lemma max_step_eq (m x : ℚ) : (if x > m then x else m) = max m x := by
  rcases le_or_lt x m with h | h
  · rw [if_neg (not_lt.mpr h), max_eq_left h]
  · rw [if_pos h, max_eq_right h.le]

/-- The maxFromArray fold is the fold of the binary maximum. -/
lemma foldl_ifmax_eq_foldl_max : ∀ (l : List ℚ) (a : ℚ),
    l.foldl (fun m x => if x > m then x else m) a = l.foldl max a := by
  intro l
  induction l with
  | nil => intro a; rfl
  | cons x t ih => intro a; simp only [List.foldl_cons, max_step_eq, ih]

/-- maxFromArray as a fold of the binary maximum over the sentinel. -/
lemma maxFromArray_eq (buf : List ℚ) :
    maxFromArray buf = buf.foldl max int64Lowest := by
  unfold maxFromArray
  exact foldl_ifmax_eq_foldl_max buf int64Lowest

/-- The seed is a lower bound of a maximum fold. -/
lemma le_foldl_max : ∀ (l : List ℚ) (a : ℚ), a ≤ l.foldl max a := by
  intro l
  induction l with
  | nil => intro a; exact le_refl a
  | cons x t ih => intro a; exact le_trans (le_max_left a x) (ih (max a x))

/-- Every element is a lower bound of a maximum fold. -/
lemma mem_le_foldl_max : ∀ (l : List ℚ) (a : ℚ), ∀ x ∈ l, x ≤ l.foldl max a := by
  intro l
  induction l with
  | nil => intro a x hx; simp at hx
  | cons y t ih =>
    intro a x hx
    rcases List.mem_cons.mp hx with h | h
    · subst h
      exact le_trans (le_max_right a x) (le_foldl_max t (max a x))
    · exact ih (max a y) x h

/-- A maximum fold returns its seed or one of the elements. -/
lemma foldl_max_mem : ∀ (l : List ℚ) (a : ℚ), l.foldl max a = a ∨ l.foldl max a ∈ l := by
  intro l
  induction l with
  | nil => intro a; exact Or.inl rfl
  | cons y t ih =>
    intro a
    rw [List.foldl_cons]
    rcases ih (max a y) with h | h
    · rcases max_choice a y with hm | hm
      · exact Or.inl (by rw [h, hm])
      · exact Or.inr (by rw [h, hm]; exact List.mem_cons_self y t)
    · exact Or.inr (List.mem_cons_of_mem y h)

/-- With an element at or above the sentinel, maxFromArray is an element
of the buffer. -/
lemma maxFromArray_mem (buf : List ℚ) (x : ℚ) (hx : x ∈ buf)
    (hxle : int64Lowest ≤ x) : maxFromArray buf ∈ buf := by
  rw [maxFromArray_eq]
  rcases foldl_max_mem buf int64Lowest with he | he
  · have h1 : x ≤ buf.foldl max int64Lowest := mem_le_foldl_max buf int64Lowest x hx
    have h2 : buf.foldl max int64Lowest ≤ x := by rw [he]; exact hxle
    have h3 : x = buf.foldl max int64Lowest := le_antisymm h1 h2
    exact h3 ▸ hx
  · exact he

/-- The residual fold of GetValue is the sum of the per-pair maxima. -/
lemma foldl_find_eq_sum : ∀ (l : List (List ℚ)) (init : ℚ),
    l.foldl findFFTConvolutionAndMaxValue init = init + (l.map maxFromArray).sum := by
  intro l
  induction l with
  | nil => intro init; simp
  | cons b t ih =>
    intro init
    simp only [List.foldl_cons, List.map_cons, List.sum_cons, findFFTConvolutionAndMaxValue, ih]
    ring

end FFTConvolutionCostFunction

/-! ## Claim theorems -/

/-- C1: the claim states that subtract mode sets an in-threshold pixel
to clamp(input - surface, 0, 255), so input 10 with surface 50 should
give 0 and input 200 with surface -100 should give 255.  The code
instead stores the double difference into the `uint8_t` pixel (an
out-of-range store, wrapping modulo 256), after which the clamp tests
`image[t] < 0` and `image[t] > 255` on the unsigned 8-bit value can
never fire: the two quoted inputs produce 216 and 44, not 0 and 255. -/
theorem c1_subtract_wraps_not_clamps :
    CalculateBackground.subtractCorrectPixel 0 255 50 10 = 216 ∧
    CalculateBackground.subtractCorrectPixel 0 255 (-100) 200 = 44 ∧
    ¬ CalculateBackground.subtractCorrectPixel 0 255 50 10 = 0 ∧
    ¬ CalculateBackground.subtractCorrectPixel 0 255 (-100) 200 = 255 := by
  have h1 : ((10 : ℚ) - 50) = ((-40 : ℤ) : ℚ) := by norm_num
  have h2 : ((200 : ℚ) - (-100)) = ((300 : ℤ) : ℚ) := by norm_num
  have e1 : CalculateBackground.subtractCorrectPixel 0 255 50 10 = 216 := by
    unfold CalculateBackground.subtractCorrectPixel
    rw [if_pos (by norm_num)]
    simp only [Nat.cast_ofNat, h1, CalculateBackground.dtrunc_intCast]
    decide
  have e2 : CalculateBackground.subtractCorrectPixel 0 255 (-100) 200 = 44 := by
    unfold CalculateBackground.subtractCorrectPixel
    rw [if_pos (by norm_num)]
    simp only [Nat.cast_ofNat, h2, CalculateBackground.dtrunc_intCast]
    decide
  exact ⟨e1, e2, by rw [e1]; decide, by rw [e2]; decide⟩

/-- C2: for every vector of per-overlap-pair convolution outputs (each
pair's buffer nonempty and reaching at least the int64-lowest sentinel,
as convolution outputs of real image data always do), GetValue is the
square of the residual, the residual is the sum of the per-pair values
of maxFromArray, and each such value is exactly the maximum element of
that pair's convolution output buffer. -/
theorem c2_getValue_residual_squared (convOutputs : List (List ℚ))
    (h : ∀ buf ∈ convOutputs, ∃ x ∈ buf, FFTConvolutionCostFunction.int64Lowest ≤ x) :
    FFTConvolutionCostFunction.GetValue convOutputs =
      ((convOutputs.map FFTConvolutionCostFunction.maxFromArray).sum) *
        ((convOutputs.map FFTConvolutionCostFunction.maxFromArray).sum) ∧
    ∀ buf ∈ convOutputs,
      FFTConvolutionCostFunction.maxFromArray buf ∈ buf ∧
        ∀ x ∈ buf, x ≤ FFTConvolutionCostFunction.maxFromArray buf := by
  constructor
  · simp only [FFTConvolutionCostFunction.GetValue,
      FFTConvolutionCostFunction.foldl_find_eq_sum, zero_add]
  · intro buf hbuf
    obtain ⟨x, hx, hxle⟩ := h buf hbuf
    refine ⟨FFTConvolutionCostFunction.maxFromArray_mem buf x hx hxle, ?_⟩
    intro z hz
    rw [FFTConvolutionCostFunction.maxFromArray_eq]
    exact FFTConvolutionCostFunction.mem_le_foldl_max buf _ z hz

/-- C2 witness at a concrete input. -/
theorem c2_getValue_residual_squared_witness :
    FFTConvolutionCostFunction.GetValue [[1, 3], [2]] =
      ((([[1, 3], [2]] : List (List ℚ)).map FFTConvolutionCostFunction.maxFromArray).sum) *
        ((([[1, 3], [2]] : List (List ℚ)).map FFTConvolutionCostFunction.maxFromArray).sum) ∧
    ∀ buf ∈ ([[1, 3], [2]] : List (List ℚ)),
      FFTConvolutionCostFunction.maxFromArray buf ∈ buf ∧
        ∀ x ∈ buf, x ≤ FFTConvolutionCostFunction.maxFromArray buf :=
  c2_getValue_residual_squared [[1, 3], [2]] (by decide)

/-- C3: for every coefficient vector produced by the least-squares
solve, every width and every pixel count, the background image (the
fitted polynomial evaluated at every pixel, minus the arithmetic mean of
those evaluations) has exact mean 0 over the full pixel set. -/
theorem c3_centered_background_mean_zero (p : Fin 6 → ℚ) (w n : ℕ) :
    CalculateBackground.fieldMean (CalculateBackground.backgroundImage p w n) = 0 :=
  CalculateBackground.fieldMean_centerField _

/-- C4: row i of the design matrix is [1, x, y, x*y, x^2, y^2] with
x = floor(i / w) and y = i mod w, and the right-hand side entry is the
averaged background value at i. -/
theorem c4_design_matrix_rows (w i : ℕ) (bg : ℕ → ℚ) :
    CalculateBackground.designA w i =
      ![1, ((i / w : ℕ) : ℤ), ((i % w : ℕ) : ℤ),
        ((i / w : ℕ) : ℤ) * ((i % w : ℕ) : ℤ),
        ((i / w : ℕ) : ℤ) ^ 2, ((i % w : ℕ) : ℤ) ^ 2] ∧
    CalculateBackground.designB bg i = bg i := by
  constructor
  · funext c
    fin_cases c <;> simp [CalculateBackground.designA, pow_two]
  · rfl

/-- C5: at every pixel position where no source image value lies within
the thresholds (zero contributing count), the averaging step divides the
accumulated 0 by the zero count and the background value is the
non-finite NaN. -/
theorem c5_zero_count_nonfinite (low high : ℤ) (vals : List ℕ)
    (h : (CalculateBackground.aggregateAt low high vals).2 = 0) :
    CalculateBackground.averageAt low high vals = CalculateBackground.DVal.nan ∧
    (CalculateBackground.averageAt low high vals).isFinite = false := by
  have hs := CalculateBackground.aggregateAt_spec low high vals
  have hc : ((vals.filter (CalculateBackground.qualifies low high)).length : ℚ) = 0 := by
    have := congrArg Prod.snd hs
    simpa [h] using this.symm
  have hlen : (vals.filter (CalculateBackground.qualifies low high)).length = 0 := by
    exact_mod_cast hc
  have hfil : vals.filter (CalculateBackground.qualifies low high) = [] :=
    List.length_eq_zero.mp hlen
  have hsum : (CalculateBackground.aggregateAt low high vals).1 = 0 := by
    rw [hs, hfil]
    simp
  have hnan : CalculateBackground.averageAt low high vals = CalculateBackground.DVal.nan := by
    unfold CalculateBackground.averageAt CalculateBackground.ddiv
    rw [h, hsum]
    simp
  exact ⟨hnan, by rw [hnan]; rfl⟩

/-- C5 witness at a concrete input: one image whose value 10 lies below
the threshold window [50, 60]. -/
theorem c5_zero_count_nonfinite_witness :
    CalculateBackground.averageAt 50 60 [10] = CalculateBackground.DVal.nan ∧
    (CalculateBackground.averageAt 50 60 [10]).isFinite = false :=
  c5_zero_count_nonfinite 50 60 [10] (by decide)

/-- C6: for every invalid pixel, updateRegionBounds tightens exactly the
one bound whose edge distance is minimal among the four computed
distances, with ties resolved in the fixed order top, bottom, left,
right; the top bound is raised by max, the bottom lowered by min, the
left raised by max, the right lowered by min, and the other three bounds
are left unchanged. -/
theorem c6_update_region_bounds_nearest_edge (ox oy sx sy ix iy : ℤ)
    (b : FFTConvolutionCostFunction.RegionBounds) :
    FFTConvolutionCostFunction.updateRegionBounds ox oy sx sy ix iy b =
      FFTConvolutionCostFunction.applyEdge
        (FFTConvolutionCostFunction.nearestEdge
          (iy - oy) (oy + sy - iy) (ix - ox) (ox + sx - ix)) ix iy b := by
  unfold FFTConvolutionCostFunction.updateRegionBounds
    FFTConvolutionCostFunction.nearestEdge FFTConvolutionCostFunction.applyEdge
  split_ifs <;> first | rfl | (exfalso; omega)

/-- C7: when both SubtractBackground and DivideBackground are selected
(and the attribute matrix is present), dataCheck reports error -76002,
and execute aborts before the aggregation / correction body runs, with
every image array returned unmodified, whatever that body would do. -/
theorem c7_both_modes_error_before_mutation (cfg : CalculateBackground.CBConfig)
    (arrays : List (Option (List ℕ)))
    (run : List (List ℕ) → List CalculateBackground.DVal × List (List ℕ))
    (hs : cfg.subtractBackground = true) (hd : cfg.divideBackground = true) :
    CalculateBackground.dataCheck cfg (some arrays) =
      CalculateBackground.DataCheckOutcome.err (-76002) ∧
    CalculateBackground.execute cfg (some arrays) run =
      CalculateBackground.ExecOutcome.aborted (-76002) (CalculateBackground.imagesOf arrays) := by
  have hdc : CalculateBackground.dataCheck cfg (some arrays) =
      CalculateBackground.DataCheckOutcome.err (-76002) := by
    unfold CalculateBackground.dataCheck
    rw [hs, hd]
    norm_num
  refine ⟨hdc, ?_⟩
  unfold CalculateBackground.execute
  rw [hdc]
  rfl

/-- C7 witness at a concrete configuration with one image array. -/
theorem c7_both_modes_error_before_mutation_witness :
    CalculateBackground.dataCheck ⟨true, true, 0, 255⟩ (some [some [7]]) =
      CalculateBackground.DataCheckOutcome.err (-76002) ∧
    CalculateBackground.execute ⟨true, true, 0, 255⟩ (some [some [7]])
        (fun imgs => ([], imgs)) =
      CalculateBackground.ExecOutcome.aborted (-76002) (CalculateBackground.imagesOf [some [7]]) :=
  c7_both_modes_error_before_mutation ⟨true, true, 0, 255⟩ [some [7]]
    (fun imgs => ([], imgs)) rfl rfl

/-- C8: the claim states that a computation error is signalled when no
source images are provided.  The code does not: with an attribute matrix
holding zero arrays the loop never runs, the error condition stays 0,
and `m_TotalPoints = imagePtr->getNumberOfTuples()` dereferences the
null `imagePtr` — undefined behaviour instead of a reported error. -/
theorem c8_empty_images_null_deref :
    CalculateBackground.dataCheck ⟨false, false, 0, 255⟩ (some []) =
      CalculateBackground.DataCheckOutcome.nullDeref ∧
    CalculateBackground.execute ⟨false, false, 0, 255⟩ (some [])
        (fun imgs => ([], imgs)) = CalculateBackground.ExecOutcome.crashed := by
  constructor
  · rfl
  · rfl

/-- C9: for every parameter vector, GetDerivative throws (modelled as
the error value); no derivative value is ever produced. -/
theorem c9_get_derivative_always_fails (parameters : List ℚ) :
    FFTConvolutionCostFunction.GetDerivative parameters = Except.error () := rfl

/-- C10 counterexample: the buffer holding the single (double-exact)
value -(2^64) has that value as its maximum element, yet maxFromArray
returns the int64-lowest sentinel -(2^63) instead. -/
theorem c10_max_not_element_counterexample :
    FFTConvolutionCostFunction.maxFromArray [-18446744073709551616] =
      FFTConvolutionCostFunction.int64Lowest ∧
    ¬ FFTConvolutionCostFunction.maxFromArray [-18446744073709551616] =
      (-18446744073709551616 : ℚ) := by
  constructor
  · decide
  · decide

/-- C10 amended: maxFromArray never signals an error; it returns the
maximum of the int64-lowest sentinel and the buffer elements — the
maximum element whenever some element reaches the sentinel, every
element being bounded by the result — and for an empty buffer it returns
the lowest int64 value converted to double, which
findFFTConvolutionAndMaxValue silently adds to the residual as that
overlap pair's score. -/
theorem c10_max_with_sentinel (residual : ℚ) (buf : List ℚ) :
    FFTConvolutionCostFunction.findFFTConvolutionAndMaxValue residual buf =
      residual + FFTConvolutionCostFunction.maxFromArray buf ∧
    FFTConvolutionCostFunction.maxFromArray [] = FFTConvolutionCostFunction.int64Lowest ∧
    FFTConvolutionCostFunction.int64Lowest ≤ FFTConvolutionCostFunction.maxFromArray buf ∧
    (∀ x ∈ buf, x ≤ FFTConvolutionCostFunction.maxFromArray buf) ∧
    ((∃ x ∈ buf, FFTConvolutionCostFunction.int64Lowest ≤ x) →
      FFTConvolutionCostFunction.maxFromArray buf ∈ buf) := by
  refine ⟨rfl, rfl, ?_, ?_, ?_⟩
  · rw [FFTConvolutionCostFunction.maxFromArray_eq]
    exact FFTConvolutionCostFunction.le_foldl_max buf _
  · intro x hx
    rw [FFTConvolutionCostFunction.maxFromArray_eq]
    exact FFTConvolutionCostFunction.mem_le_foldl_max buf _ x hx
  · rintro ⟨x, hx, hxle⟩
    exact FFTConvolutionCostFunction.maxFromArray_mem buf x hx hxle

/-- C10 witness at a concrete input. -/
theorem c10_max_with_sentinel_witness :
    FFTConvolutionCostFunction.findFFTConvolutionAndMaxValue 1 [5] =
      1 + FFTConvolutionCostFunction.maxFromArray [5] ∧
    FFTConvolutionCostFunction.maxFromArray [5] ∈ [(5 : ℚ)] :=
  ⟨(c10_max_with_sentinel 1 [5]).1,
    (c10_max_with_sentinel 1 [5]).2.2.2.2 ⟨5, by decide, by decide⟩⟩
